import Mathlib

/-!
Verification of the ShareACart reporting scripts (`sentry_export.py`,
`slack_uploader.py`).

The Python source is shallowly embedded: dictionaries become association
lists (Python 3.7+ dicts preserve insertion order), strings are handled as
their character lists, JSON values relevant to the code paths become small
inductive types, and every network response is passed in explicitly as data.
Python's `sorted` (stable; `reverse=True` keeps the original order of
equal-keyed elements) is modelled by a stable insertion sort `iSort`; a
stable sort is uniquely determined by its ordering relation, sortedness and
stability, both of which are proved below, so the model agrees with the
source's sort on every input.
-/

namespace ShareACart

/-! ## Character/string helpers (Python `str.strip`, `str.lower`, ...) -/

/-- Characters removed by Python's `str.strip()` with no argument. -/
def isPySpace (c : Char) : Bool :=
  c = ' ' || c = '\t' || c = '\n' || c = '\x0d' || c = '\x0b' || c = '\x0c'

/-- `str.strip()` on a character list. -/
def trimCL (l : List Char) : List Char :=
  ((l.dropWhile isPySpace).reverse.dropWhile isPySpace).reverse

/-- ASCII lower-casing of one character (Python `str.lower` on the ASCII range). -/
def pyLower (c : Char) : Char :=
  if 'A' ≤ c ∧ c ≤ 'Z' then Char.ofNat (c.toNat + 32) else c

/-- ASCII upper-casing of one character. -/
def pyUpper (c : Char) : Char :=
  if 'a' ≤ c ∧ c ≤ 'z' then Char.ofNat (c.toNat - 32) else c

/-- `str.lower()` on a character list. -/
def lowerCL (l : List Char) : List Char := l.map pyLower

/-- Python `str.startswith`: does `s` start with `pat`? -/
def startsWithCL : List Char → List Char → Bool
  | _, [] => true
  | [], _ :: _ => false
  | c :: cs, p :: ps => c = p && startsWithCL cs ps

/-- Is `c` an ASCII digit? -/
def isDig (c : Char) : Bool := '0' ≤ c && c ≤ '9'

/-- Value of a digit string (callers guarantee all characters are digits). -/
def digitsToNat (l : List Char) : Nat :=
  l.foldl (fun acc c => acc * 10 + (c.toNat - 48)) 0

/-! ## Lexicographic order on `List Nat` (Python tuple comparison) -/

/-- Strict lexicographic comparison of two tuples of naturals
(Python `tuple.__lt__` for integer tuples). -/
def tupLt : List Nat → List Nat → Bool
  | _, [] => false
  | [], _ :: _ => true
  | a :: as_, b :: bs => a < b || (a = b && tupLt as_ bs)

/-- Non-strict lexicographic comparison of two tuples of naturals. -/
def tupLe : List Nat → List Nat → Bool
  | [], _ => true
  | _ :: _, [] => false
  | a :: as_, b :: bs => a < b || (a = b && tupLe as_ bs)

theorem tupLe_refl (x : List Nat) : tupLe x x = true := by
  induction x with
  | nil => rfl
  | cons a as_ ih => simp [tupLe, ih]

theorem tupLe_total (x y : List Nat) : tupLe x y = true ∨ tupLe y x = true := by
  induction x generalizing y with
  | nil => exact Or.inl rfl
  | cons a as_ ih =>
    cases y with
    | nil => exact Or.inr rfl
    | cons b bs =>
      rcases Nat.lt_trichotomy a b with h | h | h
      · left; simp [tupLe, h]
      · subst h
        rcases ih bs with h' | h'
        · left; simp [tupLe, h']
        · right; simp [tupLe, h']
      · right; simp [tupLe, h]

theorem tupLe_trans {x y z : List Nat} (hxy : tupLe x y = true)
    (hyz : tupLe y z = true) : tupLe x z = true := by
  induction x generalizing y z with
  | nil => rfl
  | cons a as_ ih =>
    cases y with
    | nil => simp [tupLe] at hxy
    | cons b bs =>
      cases z with
      | nil => simp [tupLe] at hyz
      | cons c cs =>
        simp only [tupLe, Bool.or_eq_true, Bool.and_eq_true, decide_eq_true_eq] at hxy hyz ⊢
        rcases hxy with h1 | ⟨h1, h1'⟩ <;> rcases hyz with h2 | ⟨h2, h2'⟩
        · exact Or.inl (Nat.lt_trans h1 h2)
        · exact Or.inl (h2 ▸ h1)
        · exact Or.inl (h1 ▸ h2)
        · exact Or.inr ⟨h1.trans h2, ih h1' h2'⟩

theorem tupLt_iff_not_tupLe (x y : List Nat) : tupLt x y = true ↔ ¬ tupLe y x = true := by
  induction x generalizing y with
  | nil =>
    cases y with
    | nil => simp [tupLt, tupLe]
    | cons b bs => simp [tupLt, tupLe]
  | cons a as_ ih =>
    cases y with
    | nil => simp [tupLt, tupLe]
    | cons b bs =>
      simp only [tupLt, tupLe, Bool.or_eq_true, Bool.and_eq_true, decide_eq_true_eq]
      constructor
      · rintro (h | ⟨h, h'⟩)
        · rintro (h2 | ⟨h2, _⟩) <;> omega
        · rintro (h2 | ⟨h2, h2'⟩)
          · omega
          · exact (ih bs).mp h' h2'
      · intro h
        rcases Nat.lt_trichotomy a b with h1 | h1 | h1
        · exact Or.inl h1
        · subst h1
          refine Or.inr ⟨rfl, (ih bs).mpr ?_⟩
          intro hc
          exact h (Or.inr ⟨rfl, hc⟩)
        · exact absurd (Or.inl h1) h

/-! ## Stable insertion sort

Model of Python's stable `sorted`/`list.sort`.  `r a b = true` means `a` is
allowed to be placed before `b`; on ties (`r a b` and `r b a`) the element
that came first in the input stays first. -/

/-- Insert `a` into `l` before the first element `b` with `r a b`. -/
def oIns (r : α → α → Bool) (a : α) : List α → List α
  | [] => [a]
  | b :: l => if r a b then a :: b :: l else b :: oIns r a l

/-- Stable insertion sort with placement relation `r`. -/
def iSort (r : α → α → Bool) : List α → List α
  | [] => []
  | x :: xs => oIns r x (iSort r xs)

theorem mem_oIns {r : α → α → Bool} {a x : α} {l : List α} :
    x ∈ oIns r a l ↔ x = a ∨ x ∈ l := by
  induction l with
  | nil => simp [oIns]
  | cons b t ih =>
    by_cases h : r a b = true
    · simp [oIns, h]
    · simp only [oIns, if_neg h, List.mem_cons, ih]
      tauto

theorem oIns_perm (r : α → α → Bool) (a : α) (l : List α) :
    List.Perm (oIns r a l) (a :: l) := by
  induction l with
  | nil => simp [oIns]
  | cons b t ih =>
    by_cases h : r a b = true
    · simp [oIns, h]
    · simp only [oIns, if_neg h]
      exact (List.Perm.cons b ih).trans (List.Perm.swap a b t)

theorem iSort_perm (r : α → α → Bool) (l : List α) :
    List.Perm (iSort r l) l := by
  induction l with
  | nil => exact List.Perm.refl _
  | cons x xs ih =>
    exact (oIns_perm r x (iSort r xs)).trans (List.Perm.cons x ih)

theorem mem_iSort {r : α → α → Bool} {x : α} {l : List α} :
    x ∈ iSort r l ↔ x ∈ l :=
  (iSort_perm r l).mem_iff

theorem length_iSort (r : α → α → Bool) (l : List α) :
    (iSort r l).length = l.length :=
  (iSort_perm r l).length_eq

theorem pairwise_oIns {r : α → α → Bool}
    (htot : ∀ a b, r a b = true ∨ r b a = true)
    (htr : ∀ a b c, r a b = true → r b c = true → r a c = true)
    {a : α} {l : List α} (hl : l.Pairwise (fun x y => r x y = true)) :
    (oIns r a l).Pairwise (fun x y => r x y = true) := by
  induction l with
  | nil => simp [oIns]
  | cons b t ih =>
    rcases List.pairwise_cons.mp hl with ⟨hb, ht⟩
    by_cases h : r a b = true
    · simp only [oIns, if_pos h]
      refine List.pairwise_cons.mpr ⟨?_, hl⟩
      intro x hx
      rcases List.mem_cons.mp hx with rfl | hx
      · exact h
      · exact htr a b x h (hb x hx)
    · simp only [oIns, if_neg h]
      refine List.pairwise_cons.mpr ⟨?_, ih ht⟩
      intro x hx
      rcases mem_oIns.mp hx with heq | hx
      · subst heq
        rcases htot x b with h' | h'
        · exact absurd h' h
        · exact h'
      · exact hb x hx

theorem pairwise_iSort {r : α → α → Bool}
    (htot : ∀ a b, r a b = true ∨ r b a = true)
    (htr : ∀ a b c, r a b = true → r b c = true → r a c = true)
    (l : List α) : (iSort r l).Pairwise (fun x y => r x y = true) := by
  induction l with
  | nil => simp [iSort]
  | cons x xs ih => exact pairwise_oIns htot htr ih

theorem filter_oIns {r : α → α → Bool} {p : α → Bool} {a : α} (l : List α)
    (h : ∀ b, p a = true → p b = true → r a b = true) :
    (oIns r a l).filter p = if p a = true then a :: l.filter p else l.filter p := by
  induction l with
  | nil => by_cases hpa : p a = true <;> simp [oIns, List.filter, hpa]
  | cons b t ih =>
    by_cases hr : r a b = true
    · by_cases hpa : p a = true <;> simp [oIns, hr, List.filter_cons, hpa]
    · have hnb : p a = true → p b = true → False := fun h1 h2 => hr (h b h1 h2)
      by_cases hpa : p a = true
      · have hpb : ¬ p b = true := fun hb => hnb hpa hb
        simp [oIns, if_neg hr, List.filter_cons, hpb, ih, hpa]
      · by_cases hpb : p b = true <;>
          simp [oIns, if_neg hr, List.filter_cons, hpb, ih, hpa]

theorem filter_iSort {r : α → α → Bool} {p : α → Bool}
    (h : ∀ a b, p a = true → p b = true → r a b = true) (l : List α) :
    (iSort r l).filter p = l.filter p := by
  induction l with
  | nil => rfl
  | cons x xs ih =>
    rw [iSort, filter_oIns (iSort r xs) (h x), ih, List.filter_cons]

theorem nodup_iSort {r : α → α → Bool} {l : List α} (h : l.Nodup) :
    (iSort r l).Nodup :=
  ((iSort_perm r l).nodup_iff).mpr h

/-! ## `semver_key` (sentry_export.py, lines 63-109) -/

/-- Python `base.split(".")` on a character list: splits on every `'.'`,
keeping empty parts (`"".split(".") == [""]`). -/
def splitOnDot : List Char → List (List Char)
  | [] => [[]]
  | c :: cs =>
    if c = '.' then [] :: splitOnDot cs
    else
      match splitOnDot cs with
      | r :: rs => (c :: r) :: rs
      | [] => [[c]]

/-- Python `int(p)` under `try/except ValueError: 0`, for the version
components: optional surrounding whitespace and an optional sign, then
digits; anything else yields 0.  (`'-'` cannot occur here: the component
comes from the part of the version before the first `'-'`.) -/
def parsePyIntD0 (l : List Char) : Nat :=
  let t := trimCL l
  let t := match t with
    | '+' :: rest => rest
    | _ => t
  if t ≠ [] ∧ t.all isDig then digitsToNat t else 0

/-- First maximal digit run of `l`, as in `re.search` for one-or-more
digits; 0 when there is none. -/
def firstNat : List Char → Nat
  | [] => 0
  | c :: cs => if isDig c then digitsToNat (c :: cs.takeWhile isDig) else firstNat cs

/-- `semver_key` (sentry_export.py): sortable key of a version string.
Strips outer whitespace, drops build metadata after the first `'+'`,
splits off a pre-release suffix at the first `'-'`, parses the
dot-separated prefix as up to 4 numbers (non-numeric → 0, padded/truncated
to 4), flags final releases above pre-releases, and tiebreaks on the first
embedded number of the pre-release suffix.  Python returns a 6-tuple; here
it is a 6-element list compared with `tupLt`/`tupLe`. -/
def semver_key (version : String) : List Nat :=
  let v := trimCL version.data
  let v := v.takeWhile (· ≠ '+')
  let has_prerelease := v.contains '-'
  let base := v.takeWhile (· ≠ '-')
  let prerelease := ((v.dropWhile (· ≠ '-')).drop 1)
  let nums := (splitOnDot base).map parsePyIntD0
  let nums4 := (nums ++ List.replicate 4 0).take 4
  let final_flag := if has_prerelease then 0 else 1
  let prerelease_num :=
    if has_prerelease ∧ prerelease ≠ [] then firstNat prerelease else 0
  nums4 ++ [final_flag, prerelease_num]

/-! ## UTC datetimes (`parse_iso`, date arithmetic; sentry_export.py 37-60) -/

/-- A timezone-aware UTC datetime value. -/
structure DT where
  year : Nat
  month : Nat
  day : Nat
  hour : Nat
  minute : Nat
  second : Nat
  micro : Nat
deriving DecidableEq, Repr

/-- Comparison key of a UTC datetime (lexicographic field comparison is
exactly Python's `datetime` comparison for equal offsets). -/
def dtKey (d : DT) : List Nat :=
  [d.year, d.month, d.day, d.hour, d.minute, d.second, d.micro]

/-- Gregorian leap year (`calendar.isleap` rule used by `datetime`). -/
def isLeap (y : Nat) : Bool :=
  (y % 4 = 0 && y % 100 ≠ 0) || y % 400 = 0

/-- Days in a month of a given year. -/
def daysInMonth (y m : Nat) : Nat :=
  if m = 2 then (if isLeap y then 29 else 28)
  else if m = 4 ∨ m = 6 ∨ m = 9 ∨ m = 11 then 30
  else 31

/-- `dt - timedelta(days=1)` on a UTC datetime: same time of day on the
previous calendar day. -/
def prevDay (d : DT) : DT :=
  if d.day > 1 then { d with day := d.day - 1 }
  else if d.month > 1 then
    { d with month := d.month - 1, day := daysInMonth d.year (d.month - 1) }
  else
    { d with year := d.year - 1, month := 12, day := 31 }

/-- Days before the months preceding month `m` in year `y` (1-based `m`). -/
def daysBeforeMonth (y m : Nat) : Nat :=
  (List.range' 1 (m - 1)).foldl (fun acc k => acc + daysInMonth y k) 0

/-- Proleptic-Gregorian day number of a date (the quantity whose
difference `(end_dt - start_dt).days` computes for two midnight-aligned
UTC datetimes). -/
def dayNumber (d : DT) : Nat :=
  365 * (d.year - 1) + (d.year - 1) / 4 - (d.year - 1) / 100 + (d.year - 1) / 400
    + daysBeforeMonth d.year d.month + d.day

/-- `"Z"` → `"+00:00"` replacement of `dt_str.replace("Z", "+00:00")`. -/
def replaceZ (l : List Char) : List Char :=
  l.flatMap fun c => if c = 'Z' then "+00:00".data else [c]

/-- Parse the tail after `HH:MM:SS`: either the UTC offset `+00:00`
directly, or a fractional-second part (1-6 digits) followed by it;
returns the microsecond value. -/
def parseIsoTail : List Char → Option Nat
  | [] => none
  | '+' :: r => if r = ['0', '0', ':', '0', '0'] then some 0 else none
  | '.' :: r =>
    let ds := r.takeWhile isDig
    let rest := r.dropWhile isDig
    if ds ≠ [] ∧ ds.length ≤ 6 ∧ rest = ['+', '0', '0', ':', '0', '0'] then
      some (digitsToNat ds * 10 ^ (6 - ds.length))
    else none
  | _ => none

/-- Two-digit value. -/
def val2 (a b : Char) : Nat := (a.toNat - 48) * 10 + (b.toNat - 48)

/-- Parse `YYYY-MM-DDTHH:MM:SS[.ffffff]+00:00` into a `DT`, validating the
calendar and clock ranges the way `datetime.fromisoformat` does. -/
def parseIsoChars : List Char → Option DT
  | y1 :: y2 :: y3 :: y4 :: '-' :: mo1 :: mo2 :: '-' :: d1 :: d2 :: 'T' ::
      h1 :: h2 :: ':' :: mi1 :: mi2 :: ':' :: s1 :: s2 :: rest =>
    if ([y1, y2, y3, y4, mo1, mo2, d1, d2, h1, h2, mi1, mi2, s1, s2].all isDig) then
      let y := val2 y1 y2 * 100 + val2 y3 y4
      let mo := val2 mo1 mo2
      let d := val2 d1 d2
      let h := val2 h1 h2
      let mi := val2 mi1 mi2
      let s := val2 s1 s2
      match parseIsoTail rest with
      | none => none
      | some us =>
        if 1 ≤ y ∧ 1 ≤ mo ∧ mo ≤ 12 ∧ 1 ≤ d ∧ d ≤ daysInMonth y mo ∧
            h ≤ 23 ∧ mi ≤ 59 ∧ s ≤ 59 then
          some ⟨y, mo, d, h, mi, s, us⟩
        else none
    else none
  | _ => none

/-- `parse_iso` (sentry_export.py): parse an ISO datetime such as
`2026-01-12T03:26:26.824977Z`, returning `none` for empty or malformed
input.  Modelling scope: the source calls `datetime.fromisoformat` after
replacing `"Z"` with `"+00:00"`; only the full timezone-aware UTC shape
the service emits is treated as parseable (a naive or non-UTC timestamp
could not be compared against the UTC window end anyway). -/
def parse_iso (dt_str : String) : Option DT :=
  if dt_str = "" then none
  else parseIsoChars (replaceZ dt_str.data)

/-! ## Release selection (`get_latest_releases`; sentry_export.py 112-163) -/

/-- One record of the release-catalog JSON array: `{version, dateCreated}`.
`none` models an absent or `null` field (`rel.get(...)`). -/
structure RelJson where
  version : Option String
  dateCreated : Option String
deriving DecidableEq, Repr

/-- The release-catalog HTTP response: status code and decoded JSON array. -/
structure RelResp where
  status : Nat
  body : List RelJson
deriving Repr

/-- Python `str.strip` on a `String`. -/
def pyStrip (s : String) : String := String.mk (trimCL s.data)

/-- The eligibility test applied to one catalog record inside the loop of
`get_latest_releases`: the (stripped) version must be non-empty, the
creation timestamp must parse, the release must not be created after
`end_dt`, and when the prefix filter is non-empty the version must start
with it.  Returns the version string that enters `eligible_versions`. -/
def eligRel (end_dt : DT) (prefixFilter : String) (rel : RelJson) : Option String :=
  let version := pyStrip (rel.version.getD "")
  match parse_iso (rel.dateCreated.getD "") with
  | none => none
  | some created =>
    if version = "" then none
    else if tupLt (dtKey end_dt) (dtKey created) then none
    else if prefixFilter ≠ "" ∧ ¬ startsWithCL version.data prefixFilter.data then none
    else some version

/-- First-occurrence-wins deduplication (the `if version not in
version_to_created` check). -/
def dedupAux (seen : List String) : List String → List String
  | [] => []
  | x :: xs => if x ∈ seen then dedupAux seen xs else x :: dedupAux (x :: seen) xs

/-- Deduplicate keeping first occurrences. -/
def dedupFirst (l : List String) : List String := dedupAux [] l

/-- The `eligible_versions` list built by the loop of `get_latest_releases`. -/
def eligibleVersions (body : List RelJson) (end_dt : DT) (prefixFilter : String) :
    List String :=
  dedupFirst (body.filterMap (eligRel end_dt prefixFilter))

/-- Placement relation of `eligible_versions.sort(key=semver_key, reverse=True)`:
descending by `semver_key`, stable on ties. -/
def relSortKeyGe (a b : String) : Bool := tupLe (semver_key b) (semver_key a)

/-- `get_latest_releases` (sentry_export.py): pick the latest releases by
semantic version among those created no later than `end_dt`; a failed
catalog request yields the empty list. -/
def get_latest_releases (resp : RelResp) (limit : Nat) (end_dt : DT)
    (prefixFilter : String) : List String :=
  if resp.status ≠ 200 then []
  else (iSort relSortKeyGe (eligibleVersions resp.body end_dt prefixFilter)).take limit

/-! ## Query building (`build_query`; sentry_export.py 166-193) -/

/-- Python `" ".join(parts)`. -/
def joinSpace : List String → String
  | [] => ""
  | [x] => x
  | x :: xs => x ++ " " ++ joinSpace xs

/-- Python `",".join(parts)`. -/
def joinComma : List String → String
  | [] => ""
  | [x] => x
  | x :: xs => x ++ "," ++ joinComma xs

/-- Decimal digits of `n`, with structural fuel recursion (`n` itself
bounds the number of digits). -/
def natDigitsAux : Nat → Nat → List Char
  | 0, _ => []
  | f + 1, n =>
    if n < 10 then [Char.ofNat (n + 48)]
    else natDigitsAux f (n / 10) ++ [Char.ofNat (n % 10 + 48)]

/-- Decimal digits of `n`. -/
def natDigits (n : Nat) : List Char := natDigitsAux (n + 1) n

/-- `n` zero-padded to (at least) width `w`, as `%02d`/`%04d` do. -/
def padNum (w n : Nat) : String :=
  let ds := natDigits n
  String.mk (List.replicate (w - ds.length) '0' ++ ds)

/-- `"{:%Y-%m-%d}".format(dt)`: the date part of a UTC datetime. -/
def fmtYmd (d : DT) : String :=
  padNum 4 d.year ++ "-" ++ padNum 2 d.month ++ "-" ++ padNum 2 d.day

/-- `build_query` (sentry_export.py): the issue-search query string and the
stats-period label.  `baseQuery` stands for the module-level `BASE_QUERY`
(already stripped at load time); a `None` release list and an empty one are
both falsy in `if releases:`, so both are the empty list here. -/
def build_query (baseQuery : String) (start_dt end_dt : DT)
    (releases : List String) : String × String :=
  let query_parts : List String := if baseQuery ≠ "" then [baseQuery] else []
  let query_parts :=
    query_parts ++
      (if releases ≠ [] then
        (if releases.length = 1 then ["release:" ++ releases.headD ""]
         else ["release:[" ++ joinComma releases ++ "]"])
       else [])
  let query_parts :=
    query_parts ++
      ["lastSeen:>=" ++ fmtYmd start_dt, "lastSeen:<=" ++ fmtYmd (prevDay end_dt)]
  let query := joinSpace query_parts
  let period_days : Int := (dayNumber end_dt : Int) - (dayNumber start_dt : Int)
  let stats_period := if period_days ≤ 1 then "24h" else "14d"
  (query, stats_period)

/-! ## Issues, vendor classification and aggregation
(sentry_export.py 238-282) -/

/-- A value of the per-period `stats` mapping: either a JSON array of
`(timestamp, count)` pairs (the shape `isinstance(..., list)` accepts) or
anything else. -/
inductive SVal where
  | list (pairs : List (Int × Int))
  | other
deriving DecidableEq, Repr

/-- The `metadata` record of an issue; `none` fields model absent keys. -/
structure IssueMeta where
  mtype : Option String
  mvalue : Option String
deriving DecidableEq, Repr

/-- One issue returned by the issues endpoint, restricted to the fields the
script reads.  `metadata = none` models a missing `metadata` key
(`issue.get("metadata", {})`); `count` is the raw total after `int(...)`
(0 when absent); `stats = []` models a missing, `null` or empty `stats`
mapping (`issue.get("stats") or {}`), otherwise the dict's key/value pairs
in insertion order. -/
structure Issue where
  metadata : Option IssueMeta
  title : Option String
  count : Int
  stats : List (String × SVal)
deriving DecidableEq, Repr

/-- The exclusion set `EXCLUDE` (sentry_export.py 28-32). -/
def EXCLUDE : List String :=
  ["unknown", "typeerror", "securityerror", "error",
   "syntaxerror", "notallowederror", "referenceerror",
   "aborterror", "monorailrequesterror", "runtimeerror", "rpcerror"]

/-- `vendor_raw.strip().lower()`. -/
def normalizeVendor (s : String) : String := String.mk (lowerCL (trimCL s.data))

/-- `get_vendor` (sentry_export.py): extract and normalize the vendor name
from `issue.metadata.type`; `none` means the issue is excluded. -/
def get_vendor (issue : Issue) : Option String :=
  let vendor_raw := (issue.metadata.map (fun md => md.mtype.getD "")).getD ""
  if vendor_raw = "" then none
  else
    let vendor := normalizeVendor vendor_raw
    if vendor = "" ∨ vendor ∈ EXCLUDE then none
    else some vendor

/-- The display message of an issue:
`issue.get("title") or issue.get("metadata", {}).get("value", "")`. -/
def messageOf (issue : Issue) : String :=
  let t := issue.title.getD ""
  if t ≠ "" then t
  else (issue.metadata.map (fun md => md.mvalue.getD "")).getD ""

/-- The event count taken for one issue (sentry_export.py 262-273): if the
`stats` mapping is non-empty, its first key is truthy and maps to a list,
the sum of that series' counts; otherwise the raw total `count`. -/
def eventsOf (issue : Issue) : Int :=
  match issue.stats with
  | [] => issue.count
  | (period_key, v) :: _ =>
    if period_key ≠ "" then
      match v with
      | SVal.list pairs => (pairs.map Prod.snd).sum
      | SVal.other => issue.count
    else issue.count

/-- A vendor's accumulator record (`{"Events": ..., "Messages": ...,
"IssueCount": ...}`). -/
structure VendorRec where
  events : Int
  messages : List String
  issueCount : Nat
deriving DecidableEq, Repr

/-- Fold one classified issue into the vendor dictionary, modelled as an
association list in insertion order: an existing key keeps its position
and accumulates; a new key is appended at the end. -/
def addIssue (m : List (String × VendorRec)) (v : String) (e : Int)
    (msg : String) : List (String × VendorRec) :=
  match m with
  | [] => [(v, ⟨e, [msg], 1⟩)]
  | (k, r) :: t =>
    if k = v then
      (k, ⟨r.events + e, r.messages ++ [msg], r.issueCount + 1⟩) :: t
    else (k, r) :: addIssue t v e msg

/-- `process_issues` (sentry_export.py): aggregate the fetched issues by
vendor. -/
def process_issues (issues : List Issue) : List (String × VendorRec) :=
  issues.foldl
    (fun m issue =>
      match get_vendor issue with
      | none => m
      | some vendor => addIssue m vendor (eventsOf issue) (messageOf issue))
    []

/-! ## Report rendering (`save_report`; sentry_export.py 285-298) -/

/-- Placement relation of `sorted(vendors.items(), key=..., reverse=True)`:
descending by accumulated `Events`, stable on ties. -/
def vendSortGe (a b : String × VendorRec) : Bool := decide (b.2.events ≤ a.2.events)

/-- The sorted vendor list `sorted_vendors` that `save_report` builds and
returns. -/
def save_report (vendors : List (String × VendorRec)) : List (String × VendorRec) :=
  iSort vendSortGe vendors

/-- Code-point key of a string (Python compares strings by code points). -/
def strKey (s : String) : List Nat := s.data.map Char.toNat

/-- String placement relation for `sorted(...)` on strings: non-decreasing
code-point lexicographic order. -/
def strLeB (a b : String) : Bool := ! tupLt (strKey b) (strKey a)

/-- `sorted(set(messages))`: the distinct messages in lexicographic order. -/
def sortedMessages (messages : List String) : List String :=
  iSort strLeB (dedupFirst messages)

/-- Python `"; ".join(parts)`. -/
def joinSemi : List String → String
  | [] => ""
  | [x] => x
  | x :: xs => x ++ "; " ++ joinSemi xs

/-- Python `str.capitalize()`: first character upper-cased, the rest
lower-cased (ASCII scope). -/
def pyCapitalize (s : String) : String :=
  match s.data with
  | [] => ""
  | c :: cs => String.mk (pyUpper c :: lowerCL cs)

/-- One rendered CSV data row. -/
structure ReportRow where
  rank : Nat
  vendor : String
  events : Int
  issues : Nat
  messages : String
deriving DecidableEq, Repr

/-- The CSV data rows written by `save_report`'s loop
(`enumerate(sorted_vendors, start=1)`). -/
def reportRows (vendors : List (String × VendorRec)) : List ReportRow :=
  (save_report vendors).enum.map fun p =>
    ⟨p.1 + 1, pyCapitalize p.2.1, p.2.2.events, p.2.2.issueCount,
      joinSemi (sortedMessages p.2.2.messages)⟩

/-! ## Issue fetching with pagination (`fetch_issues`; sentry_export.py
196-235) -/

/-- One issues-endpoint HTTP response: status, decoded JSON array of
issues (`resp.json() or []` makes a null body the empty list) and the
`Link` header (`""` when absent). -/
structure PageResp where
  status : Nat
  issues : List Issue
  linkHeader : String
deriving DecidableEq, Repr

/-- `'rel="next"' in link_header`. -/
def hasNextRel (l : List Char) : Bool :=
  match l with
  | [] => false
  | _ :: cs => startsWithCL l "rel=\"next\"".data || hasNextRel cs

/-- `re.search(r"cursor=([^&>]+)", link_header)`: scan left to right for
`cursor=` followed by at least one character that is neither `&` nor `>`,
returning the maximal such run. -/
def cursorScan : List Char → Option String
  | [] => none
  | c :: cs =>
    if startsWithCL (c :: cs) "cursor=".data then
      let t := ((c :: cs).drop 7).takeWhile fun ch => ch ≠ '&' ∧ ch ≠ '>'
      if t = [] then cursorScan cs else some (String.mk t)
    else cursorScan cs

/-- The next-cursor extraction at the bottom of the pagination loop: `none`
when there is no `rel="next"` relation or the cursor regex does not match
(either way the loop breaks). -/
def nextCursor (linkHeader : String) : Option String :=
  if hasNextRel linkHeader.data then cursorScan linkHeader.data else none

/-- `fetch_issues`'s pagination loop (sentry_export.py): the upstream is
modelled as the finite sequence of responses the successive requests would
receive.  A non-success response or a page with no issues stops the loop
before accumulating; a page with no next-cursor is accumulated and then
stops the loop. -/
def fetchLoop : List PageResp → List Issue
  | [] => []
  | p :: rest =>
    if p.status ≠ 200 then []
    else if p.issues.isEmpty then []
    else
      p.issues ++
        match nextCursor p.linkHeader with
        | some _ => fetchLoop rest
        | none => []

/-! ## Slack upload (`upload_file_to_slack`; slack_uploader.py 9-86) -/

/-- Outcomes of the three network steps of the upload handshake, passed in
as data: the `ok` field of `getUploadURLExternal`, the HTTP status of the
byte transfer, and the `ok` field of `completeUploadExternal`. -/
structure SlackEnv where
  getUrlOk : Bool
  uploadStatus : Nat
  completeOk : Bool
deriving DecidableEq, Repr

/-- `upload_file_to_slack` (slack_uploader.py), abstracted over the three
responses.  First component: the Python return value (`none` models the
bare `return` of the unconfigured case, `some b` models `return b`).
Second component: how many network requests were performed. -/
def upload_file_to_slack (slack_token slack_channel : String)
    (env : SlackEnv) : Option Bool × Nat :=
  if slack_token = "" ∨ slack_channel = "" then (none, 0)
  else if ¬ env.getUrlOk then (some false, 1)
  else if env.uploadStatus ≠ 200 ∧ env.uploadStatus ≠ 201 then (some false, 2)
  else if ¬ env.completeOk then (some false, 3)
  else (some true, 3)

/-! ## Spec-side definitions

Written from the specification's wording, to be compared with the
definitions translated from the source. -/

/-- Spec-side classifier (spec §4.4): read `metadata.type`; excluded when
`metadata` is missing, the field is absent, the normalized (trimmed,
lower-cased) value is empty, or it belongs to the fixed exclusion set;
otherwise the normalized value is the vendor identity. -/
def vendorSpec (issue : Issue) : Option String :=
  match issue.metadata with
  | none => none
  | some md =>
    match md.mtype with
    | none => none
    | some t =>
      let n := normalizeVendor t
      if n = "" ∨ n ∈ EXCLUDE then none else some n

/-- Spec-side event count, amended to what the code computes: when the
`stats` mapping carries a first series under a non-empty key and that
value is a list, the events are the sum of the counts in that single
series (an empty series therefore contributes 0); in every other case the
raw total `count` is used.  Exactly one of the two sources applies. -/
def eventsSpec (issue : Issue) : Int :=
  match issue.stats with
  | (k, SVal.list pairs) :: _ =>
    if k = "" then issue.count else (pairs.map Prod.snd).sum
  | _ => issue.count

/-- Spec-side query string (spec §4.3): the base filter expression when
non-empty, then a release clause only when releases are given
(`release:<v>` for exactly one, `release:[<v1>,...]` for two or more),
then the two inclusive `lastSeen` bounds on `start` and `end - 1 day`. -/
def specQuery (baseQuery : String) (start_dt end_dt : DT)
    (releases : List String) : String :=
  (if baseQuery = "" then "" else baseQuery ++ " ") ++
    (match releases with
     | [] => ""
     | [v] => "release:" ++ v ++ " "
     | vs => "release:[" ++ joinComma vs ++ "] ") ++
    ("lastSeen:>=" ++ fmtYmd start_dt ++ " " ++
      ("lastSeen:<=" ++ fmtYmd (prevDay end_dt)))

/-- Does this page stop the pagination loop (spec §4.3): no issues, or no
next-cursor link? -/
def stopPage (p : PageResp) : Bool :=
  p.issues.isEmpty || (nextCursor p.linkHeader).isNone

/-- The pages the loop visits before stopping: the longest prefix of
non-stopping pages, plus the first stopping page when there is one. -/
def pagesVisited (pages : List PageResp) : List PageResp :=
  pages.takeWhile (fun p => ! stopPage p) ++
    (pages.dropWhile (fun p => ! stopPage p)).take 1

/-- Spec-side eligibility of a version string for the release selector
(spec §4.2): some catalog record carries it (once stripped), with a
parseable creation timestamp not after the window end, and it passes the
prefix filter. -/
def isEligible (body : List RelJson) (end_dt : DT) (prefixFilter : String)
    (v : String) : Prop :=
  ∃ rel ∈ body, eligRel end_dt prefixFilter rel = some v

/-- Plain lookup in the vendor association list (Python `vendors[vendor]`
/ `vendor in vendors`). -/
def alookup (v : String) : List (String × VendorRec) → Option VendorRec
  | [] => none
  | (k, r) :: t => if k = v then some r else alookup v t

/-! ## Helper lemmas -/

theorem tupLt_eq_false_iff (x y : List Nat) :
    tupLt x y = false ↔ tupLe y x = true := by
  rw [← Bool.not_eq_true, tupLt_iff_not_tupLe, not_not]

theorem strLeB_iff (a b : String) :
    strLeB a b = true ↔ tupLe (strKey a) (strKey b) = true := by
  rw [strLeB, Bool.not_eq_true', tupLt_eq_false_iff]

theorem strLeB_total (a b : String) : strLeB a b = true ∨ strLeB b a = true := by
  rw [strLeB_iff, strLeB_iff]
  exact tupLe_total (strKey a) (strKey b)

theorem strLeB_trans (a b c : String) (h1 : strLeB a b = true)
    (h2 : strLeB b c = true) : strLeB a c = true := by
  rw [strLeB_iff] at h1 h2 ⊢
  exact tupLe_trans h1 h2

theorem vendSortGe_total (a b : String × VendorRec) :
    vendSortGe a b = true ∨ vendSortGe b a = true := by
  simp only [vendSortGe, decide_eq_true_eq]
  exact (Int.le_total b.2.events a.2.events).imp id id

theorem vendSortGe_trans (a b c : String × VendorRec) (h1 : vendSortGe a b = true)
    (h2 : vendSortGe b c = true) : vendSortGe a c = true := by
  simp only [vendSortGe, decide_eq_true_eq] at h1 h2 ⊢
  exact le_trans h2 h1

theorem relSortKeyGe_total (a b : String) :
    relSortKeyGe a b = true ∨ relSortKeyGe b a = true :=
  (tupLe_total (semver_key b) (semver_key a)).imp id id

theorem relSortKeyGe_trans (a b c : String) (h1 : relSortKeyGe a b = true)
    (h2 : relSortKeyGe b c = true) : relSortKeyGe a c = true :=
  tupLe_trans h2 h1

theorem mem_dedupAux {x : String} {l seen : List String} :
    x ∈ dedupAux seen l ↔ x ∈ l ∧ x ∉ seen := by
  induction l generalizing seen with
  | nil => simp [dedupAux]
  | cons y ys ih =>
    by_cases hy : y ∈ seen
    · rw [dedupAux, if_pos hy, ih]
      constructor
      · rintro ⟨h1, h2⟩; exact ⟨List.mem_cons_of_mem y h1, h2⟩
      · rintro ⟨h1, h2⟩
        rcases List.mem_cons.mp h1 with heq | h1
        · exact absurd (heq ▸ hy) h2
        · exact ⟨h1, h2⟩
    · rw [dedupAux, if_neg hy]
      constructor
      · intro h
        rcases List.mem_cons.mp h with heq | h
        · subst heq
          exact ⟨List.mem_cons_self x ys, hy⟩
        · obtain ⟨h1, h2⟩ := ih.mp h
          exact ⟨List.mem_cons_of_mem y h1,
            fun hc => h2 (List.mem_cons_of_mem y hc)⟩
      · rintro ⟨h1, h2⟩
        by_cases hxy : x = y
        · subst hxy
          exact List.mem_cons_self x _
        · have h1' : x ∈ ys := by
            rcases List.mem_cons.mp h1 with heq | h'
            · exact absurd heq hxy
            · exact h'
          refine List.mem_cons_of_mem y (ih.mpr ⟨h1', ?_⟩)
          intro hc
          exact (List.mem_cons.mp hc).elim hxy h2

theorem mem_dedupFirst {x : String} {l : List String} :
    x ∈ dedupFirst l ↔ x ∈ l := by
  rw [dedupFirst, mem_dedupAux]; simp

theorem nodup_dedupAux (seen l : List String) : (dedupAux seen l).Nodup := by
  induction l generalizing seen with
  | nil => exact List.nodup_nil
  | cons y ys ih =>
    by_cases hy : y ∈ seen
    · rw [dedupAux, if_pos hy]; exact ih seen
    · rw [dedupAux, if_neg hy]
      refine List.nodup_cons.mpr ⟨?_, ih (y :: seen)⟩
      intro hc
      exact (mem_dedupAux.mp hc).2 (List.mem_cons_self y seen)

theorem nodup_dedupFirst (l : List String) : (dedupFirst l).Nodup :=
  nodup_dedupAux [] l

/-- `get_vendor` computes exactly the spec-side classification. -/
theorem get_vendor_eq_vendorSpec (issue : Issue) :
    get_vendor issue = vendorSpec issue := by
  rcases issue with ⟨md, title, count, stats⟩
  cases md with
  | none => rfl
  | some m =>
    rcases m with ⟨mt, mv⟩
    cases mt with
    | none => rfl
    | some t =>
      simp only [get_vendor, vendorSpec, Option.map_some', Option.getD_some]
      by_cases ht : t = ""
      · subst ht; rfl
      · rw [if_neg ht]

theorem alookup_addIssue (m : List (String × VendorRec)) (v w : String)
    (e : Int) (msg : String) :
    alookup w (addIssue m v e msg) =
      if w = v then
        (match alookup v m with
         | none => some ⟨e, [msg], 1⟩
         | some r => some ⟨r.events + e, r.messages ++ [msg], r.issueCount + 1⟩)
      else alookup w m := by
  induction m with
  | nil =>
    by_cases hw : w = v
    · subst hw
      simp [addIssue, alookup]
    · have hv : ¬ v = w := fun h => hw h.symm
      simp [addIssue, alookup, hw, hv]
  | cons p t ih =>
    rcases p with ⟨k, r⟩
    by_cases hk : k = v
    · subst hk
      by_cases hw : w = k
      · subst hw
        simp [addIssue, alookup]
      · have hv : ¬ k = w := fun h => hw h.symm
        simp [addIssue, alookup, hw, hv]
    · rw [addIssue, if_neg hk]
      by_cases hw : k = w
      · subst hw
        simp [alookup, hk]
      · simp [alookup, hw, hk, ih]

theorem keys_addIssue (m : List (String × VendorRec)) (v : String) (e : Int)
    (msg : String) :
    (addIssue m v e msg).map Prod.fst =
      if v ∈ m.map Prod.fst then m.map Prod.fst else m.map Prod.fst ++ [v] := by
  induction m with
  | nil => simp [addIssue]
  | cons p t ih =>
    rcases p with ⟨k, r⟩
    by_cases hk : k = v
    · subst hk
      simp [addIssue]
    · have hv : ¬ v = k := fun h => hk h.symm
      rw [addIssue, if_neg hk, List.map_cons, List.map_cons, ih]
      by_cases hmem : v ∈ t.map Prod.fst
      · rw [if_pos hmem, if_pos (by exact List.mem_cons_of_mem k hmem)]
      · rw [if_neg hmem, if_neg (by
          intro hc
          exact (List.mem_cons.mp hc).elim hv hmem), List.cons_append]

theorem process_issues_append (l : List Issue) (x : Issue) :
    process_issues (l ++ [x]) =
      match get_vendor x with
      | none => process_issues l
      | some v => addIssue (process_issues l) v (eventsOf x) (messageOf x) := by
  unfold process_issues
  rw [List.foldl_append]
  rfl

/-- The predicate "issue `i` is classified to vendor `v`". -/
def classifiedTo (v : String) (i : Issue) : Bool := decide (vendorSpec i = some v)

/-- Full characterization of the aggregation: looking up vendor `v` in the
result of `process_issues` yields exactly the accumulators over the issues
classified to `v`, in input order. -/
theorem alookup_process_issues (issues : List Issue) (v : String) :
    alookup v (process_issues issues) =
      (if issues.filter (classifiedTo v) = [] then none
       else some ⟨((issues.filter (classifiedTo v)).map eventsOf).sum,
         (issues.filter (classifiedTo v)).map messageOf,
         (issues.filter (classifiedTo v)).length⟩) := by
  induction issues using List.reverseRecOn with
  | nil => simp [process_issues, alookup]
  | append_singleton l x ih =>
    rw [process_issues_append, List.filter_append]
    cases hgv : get_vendor x with
    | none =>
      have hvs : classifiedTo v x = false := by
        simp [classifiedTo, ← get_vendor_eq_vendorSpec, hgv]
      simp only [List.filter_cons, hvs, Bool.false_eq_true, if_false,
        List.filter_nil, List.append_nil]
      exact ih
    | some w =>
      have hvs : vendorSpec x = some w := get_vendor_eq_vendorSpec x ▸ hgv
      rw [alookup_addIssue]
      by_cases hwv : v = w
      · subst hwv
        have hcx : classifiedTo v x = true := by simp [classifiedTo, hvs]
        simp only [List.filter_cons, hcx, if_true, List.filter_nil]
        by_cases hfl : l.filter (classifiedTo v) = []
        · rw [ih, if_pos hfl, hfl]
          simp
        · rw [ih, if_neg hfl]
          simp [List.append_eq_nil]
      · have hvw : ¬ w = v := fun h => hwv h.symm
        have hcx : classifiedTo v x = false := by simp [classifiedTo, hvs, hvw]
        simp only [List.filter_cons, hcx, Bool.false_eq_true, if_false,
          List.filter_nil, List.append_nil, if_neg hwv]
        exact ih

theorem keys_process_issues_nodup (issues : List Issue) :
    ((process_issues issues).map Prod.fst).Nodup := by
  induction issues using List.reverseRecOn with
  | nil => simp [process_issues]
  | append_singleton l x ih =>
    rw [process_issues_append]
    cases get_vendor x with
    | none => exact ih
    | some w =>
      rw [keys_addIssue]
      by_cases hmem : w ∈ (process_issues l).map Prod.fst
      · rw [if_pos hmem]; exact ih
      · rw [if_neg hmem]
        simp only [List.nodup_append, List.nodup_cons, List.nodup_nil,
          List.disjoint_singleton]
        exact ⟨ih, by simp, by simpa using hmem⟩

theorem alookup_process_isSome (issues : List Issue) (v : String) :
    (alookup v (process_issues issues)).isSome = true ↔
      ∃ i ∈ issues, vendorSpec i = some v := by
  rw [alookup_process_issues]
  by_cases h : issues.filter (classifiedTo v) = []
  · rw [if_pos h]
    simp only [Option.isSome_none, Bool.false_eq_true, false_iff]
    rintro ⟨i, hi, hvi⟩
    have : classifiedTo v i = true := by simp [classifiedTo, hvi]
    have : i ∈ issues.filter (classifiedTo v) := List.mem_filter.mpr ⟨hi, this⟩
    simp [h] at this
  · rw [if_neg h]
    simp only [Option.isSome_some, true_iff]
    obtain ⟨i, hi⟩ := List.exists_mem_of_ne_nil _ h
    have := List.mem_filter.mp hi
    exact ⟨i, this.1, by simpa [classifiedTo] using this.2⟩

theorem eventsOf_eq_eventsSpec (issue : Issue) : eventsOf issue = eventsSpec issue := by
  rcases issue with ⟨md, t, c, stats⟩
  cases stats with
  | nil => rfl
  | cons p rest =>
    rcases p with ⟨k, v⟩
    cases v with
    | list pairs => by_cases hk : k = "" <;> simp [eventsOf, eventsSpec, hk]
    | other => by_cases hk : k = "" <;> simp [eventsOf, eventsSpec, hk]

/-! ## Claim theorems -/

/-- C1: for every sequence of fetched issues, the vendor keys of the
aggregate are exactly the distinct normalized, non-excluded
`metadata.type` values seen across the issues (no vendor twice), each
vendor's event total and issue count are the sums over exactly the issues
classified to it, and the rendered report contains exactly the aggregated
vendor entries. -/
theorem c1_vendor_invariant (issues : List Issue) (v : String)
    (p : String × VendorRec) :
    ((process_issues issues).map Prod.fst).Nodup
    ∧ alookup v (process_issues issues) =
        (if issues.filter (classifiedTo v) = [] then none
         else some ⟨((issues.filter (classifiedTo v)).map eventsOf).sum,
           (issues.filter (classifiedTo v)).map messageOf,
           (issues.filter (classifiedTo v)).length⟩)
    ∧ ((alookup v (process_issues issues)).isSome = true ↔
        ∃ i ∈ issues, vendorSpec i = some v)
    ∧ (p ∈ save_report (process_issues issues) ↔ p ∈ process_issues issues) :=
  ⟨keys_process_issues_nodup issues, alookup_process_issues issues v,
   alookup_process_isSome issues v, mem_iSort⟩

/-- Concrete issue for C2: its per-period stats series is present but the
series itself is an empty list, while the raw total `count` is 5. -/
def c2Issue : Issue :=
  ⟨some ⟨some "Stripe", none⟩, some "boom", 5, [("24h", SVal.list [])]⟩

/-- C2 counterexample: contrary to the claim, an issue whose stats series
is present but empty does NOT contribute its raw count — the code sums the
empty series and contributes 0. -/
theorem c2_events_counterexample :
    c2Issue.stats ≠ [] ∧ c2Issue.stats.head? = some ("24h", SVal.list [])
    ∧ c2Issue.count = 5 ∧ eventsOf c2Issue = 0
    ∧ ¬ eventsOf c2Issue = c2Issue.count := by
  refine ⟨by decide, by decide, by decide, by decide, by decide⟩

/-- C2 amended: the event count comes from exactly one of two sources — if
the `stats` mapping is non-empty and its first key is a non-empty string
mapping to a list, the events are the sum of the counts in that single
series (so a present-but-empty series contributes 0); in every other case
the raw total `count` is used. -/
theorem c2_events_amended :
    (∀ issue : Issue, eventsOf issue = eventsSpec issue)
    ∧ eventsOf c2Issue = 0 :=
  ⟨eventsOf_eq_eventsSpec, by decide⟩

/-- C3: `get_vendor` excludes an issue exactly when `metadata` is missing,
`metadata.type` is absent, or the normalized (trimmed, lower-cased) value
is empty or belongs to the fixed exclusion set — the spec-side classifier
`vendorSpec` states precisely these conditions; exclusion is
case-insensitive, and missing metadata is handled without raising. -/
theorem c3_vendor_classification :
    (∀ issue : Issue, get_vendor issue = vendorSpec issue)
    ∧ get_vendor ⟨some ⟨some "TypeError", none⟩, none, 0, []⟩ = none
    ∧ get_vendor ⟨some ⟨some "typeerror", none⟩, none, 0, []⟩ = none
    ∧ get_vendor ⟨some ⟨some "TYPEERROR", none⟩, none, 0, []⟩ = none
    ∧ get_vendor ⟨some ⟨some "", none⟩, none, 0, []⟩ = none
    ∧ get_vendor ⟨some ⟨none, none⟩, none, 0, []⟩ = none
    ∧ get_vendor ⟨none, none, 0, []⟩ = none
    ∧ get_vendor ⟨some ⟨some "  Stripe ", none⟩, none, 0, []⟩ = some "stripe" :=
  ⟨get_vendor_eq_vendorSpec, by decide, by decide, by decide, by decide,
   by decide, by decide, by decide⟩

/-- C5: the version comparator's key is a 6-tuple compared
lexicographically, and it orders the spec's examples as claimed: the
numeric chains, pre-release numbers, pre-release below final, `3.1` equal
to `3.1.0`, build metadata stripped, components beyond the 4th ignored,
and non-numeric components treated as 0. -/
theorem c5_semver_ordering :
    (∀ version : String, (semver_key version).length = 6)
    ∧ tupLt (semver_key "3.1.2") (semver_key "3.1.3") = true
    ∧ tupLt (semver_key "3.1.1") (semver_key "3.1.2") = true
    ∧ tupLt (semver_key "3.0.39") (semver_key "3.1.1") = true
    ∧ tupLt (semver_key "3.0.6") (semver_key "3.0.39") = true
    ∧ tupLt (semver_key "3.1.0-beta.1") (semver_key "3.1.0-beta.2") = true
    ∧ tupLt (semver_key "3.1.0-beta.1") (semver_key "3.1.0") = true
    ∧ semver_key "3.1" = semver_key "3.1.0"
    ∧ semver_key "3.1.2+build.7" = semver_key "3.1.2"
    ∧ semver_key "1.2.3.4.5" = semver_key "1.2.3.4.999"
    ∧ semver_key "3.x.2" = semver_key "3.0.2" := by
  refine ⟨fun version => ?_, by decide, by decide, by decide, by decide,
    by decide, by decide, by decide, by decide, by decide, by decide⟩
  simp only [semver_key, List.length_append, List.length_take,
    List.length_replicate, List.length_cons, List.length_nil]
  omega

/-- C10: the Slack upload returns `some true` exactly when the three
handshake steps all succeed, `some false` exactly when the credentials are
configured but some step fails, and with an empty token or channel it
returns `none` having performed no network request at all. -/
theorem c10_slack_upload (tok ch : String) (env : SlackEnv) :
    ((upload_file_to_slack tok ch env).1 = some true ↔
      ¬ (tok = "" ∨ ch = "") ∧ env.getUrlOk = true ∧
        (env.uploadStatus = 200 ∨ env.uploadStatus = 201) ∧ env.completeOk = true)
    ∧ ((upload_file_to_slack tok ch env).1 = some false ↔
      ¬ (tok = "" ∨ ch = "") ∧ ¬ (env.getUrlOk = true ∧
        (env.uploadStatus = 200 ∨ env.uploadStatus = 201) ∧ env.completeOk = true))
    ∧ ((upload_file_to_slack tok ch env).1 = none ↔ (tok = "" ∨ ch = ""))
    ∧ ((upload_file_to_slack tok ch env).2 = 0 ↔ (tok = "" ∨ ch = "")) := by
  unfold upload_file_to_slack
  split_ifs with h1 h2 h3 h4
  all_goals simp_all
  all_goals tauto

/-- C4: the report rows are sorted by event total descending; the stable
tie-break preserves the order vendors were first encountered (filtering
the sorted list to any fixed event total gives the original sub-sequence
unchanged); ranks are assigned 1-based by position, so equal totals get
consecutive distinct ranks; and each row's messages are the vendor's
message set deduplicated, sorted lexicographically and joined with the
fixed `"; "` delimiter. -/
theorem c4_report_ranking (vendors : List (String × VendorRec)) (k : Int)
    (msgs : List String) (x : String) :
    (reportRows vendors).map (fun row => row.rank) = List.range' 1 vendors.length
    ∧ (save_report vendors).Pairwise (fun a b => b.2.events ≤ a.2.events)
    ∧ (save_report vendors).filter (fun p => decide (p.2.events = k)) =
        vendors.filter (fun p => decide (p.2.events = k))
    ∧ (reportRows vendors).map (fun row => row.messages) =
        (save_report vendors).map (fun p => joinSemi (sortedMessages p.2.messages))
    ∧ (sortedMessages msgs).Pairwise (fun a b => strLeB a b = true)
    ∧ (sortedMessages msgs).Nodup
    ∧ (x ∈ sortedMessages msgs ↔ x ∈ msgs) := by
  refine ⟨?_, ?_, ?_, ?_, ?_, ?_, ?_⟩
  · rw [reportRows, List.map_map]
    rw [show ((fun row : ReportRow => row.rank) ∘
        (fun p : Nat × (String × VendorRec) =>
          (⟨p.1 + 1, pyCapitalize p.2.1, p.2.2.events, p.2.2.issueCount,
            joinSemi (sortedMessages p.2.2.messages)⟩ : ReportRow))) =
        ((fun n => n + 1) ∘ Prod.fst) from rfl]
    rw [← List.map_map, List.enum_map_fst]
    rw [show (save_report vendors).length = vendors.length from
      length_iSort vendSortGe vendors]
    rw [List.range'_eq_map_range]
    exact List.map_congr_left fun a _ => Nat.add_comm a 1
  · exact (pairwise_iSort vendSortGe_total vendSortGe_trans vendors).imp
      fun h => by simpa [vendSortGe] using h
  · exact filter_iSort
      (fun a b ha hb => by
        simp only [decide_eq_true_eq] at ha hb
        simp [vendSortGe, ha, hb]) vendors
  · rw [reportRows, List.map_map]
    rw [show ((fun row : ReportRow => row.messages) ∘
        (fun p : Nat × (String × VendorRec) =>
          (⟨p.1 + 1, pyCapitalize p.2.1, p.2.2.events, p.2.2.issueCount,
            joinSemi (sortedMessages p.2.2.messages)⟩ : ReportRow))) =
        ((fun q : String × VendorRec => joinSemi (sortedMessages q.2.messages)) ∘
          Prod.snd) from rfl]
    rw [← List.map_map, List.enum_map_snd]
  · exact pairwise_iSort strLeB_total
      (fun a b c => strLeB_trans a b c) (dedupFirst msgs)
  · exact nodup_iSort (nodup_dedupFirst msgs)
  · exact mem_iSort.trans mem_dedupFirst

/-- C7: for every finite sequence of successful pages, the pagination loop
terminates (it is a total function of the page sequence, with no page-count
cap anywhere) exactly when a page yields zero issues or carries no next
cursor, and it returns the concatenation of the issues of all pages
visited before stopping. -/
theorem c7_pagination (pages : List PageResp)
    (h : ∀ p ∈ pages, p.status = 200) :
    fetchLoop pages = (pagesVisited pages).flatMap (fun p => p.issues) := by
  induction pages with
  | nil => rfl
  | cons p rest ih =>
    have hp : p.status = 200 := h p (List.mem_cons_self p rest)
    have hrest : ∀ q ∈ rest, q.status = 200 :=
      fun q hq => h q (List.mem_cons_of_mem p hq)
    rw [fetchLoop, if_neg (by simp [hp])]
    by_cases hempty : p.issues.isEmpty
    · have hstop : stopPage p = true := by simp [stopPage, hempty]
      rw [if_pos hempty]
      simp [pagesVisited, List.takeWhile_cons, List.dropWhile_cons, hstop,
        List.isEmpty_iff.mp hempty]
    · rw [if_neg hempty]
      cases hnc : nextCursor p.linkHeader with
      | none =>
        have hstop : stopPage p = true := by simp [stopPage, hnc]
        simp [pagesVisited, List.takeWhile_cons, List.dropWhile_cons, hstop]
      | some c =>
        have hstop : stopPage p = false := by
          simp [stopPage, hempty, hnc]
        simp only [pagesVisited, List.takeWhile_cons, List.dropWhile_cons,
          hstop, Bool.not_false, if_true, List.cons_append, List.flatMap_cons]
        rw [ih hrest]
        rfl

/-- C8: upstream failures degrade, never abort — a non-success
release-catalog response makes the selector return the empty list, and a
non-success issues page stops pagination immediately, returning exactly
the issues accumulated from the pages already retrieved. -/
theorem c8_failure_handling (resp : RelResp) (limit : Nat) (end_dt : DT)
    (pf : String) (h1 : resp.status ≠ 200)
    (good : List PageResp) (bad : PageResp) (rest : List PageResp)
    (h2 : ∀ p ∈ good, p.status = 200 ∧ p.issues.isEmpty = false ∧
      (nextCursor p.linkHeader).isSome = true)
    (h3 : bad.status ≠ 200) :
    get_latest_releases resp limit end_dt pf = []
    ∧ fetchLoop (good ++ bad :: rest) = good.flatMap (fun p => p.issues) := by
  constructor
  · rw [get_latest_releases, if_pos h1]
  · induction good with
    | nil =>
      rw [List.nil_append, fetchLoop, if_pos h3]
      rfl
    | cons g gs ih =>
      obtain ⟨hst, hne, hcur⟩ := h2 g (List.mem_cons_self g gs)
      rw [List.cons_append, fetchLoop, if_neg (by simp [hst]),
        if_neg (by simp [hne])]
      obtain ⟨c, hc⟩ := Option.isSome_iff_exists.mp hcur
      rw [hc]
      rw [ih (fun q hq => h2 q (List.mem_cons_of_mem g hq))]
      simp

/-- C9: the built query string is the base filter expression (when
non-empty), then a release clause only when releases are given —
`release:<v>` for one, `release:[<v1>,...]` for two or more — then the two
inclusive `lastSeen` bounds at `start` and `end` minus one day. -/
theorem c9_query_string (baseQuery : String) (start_dt end_dt : DT)
    (releases : List String) :
    (build_query baseQuery start_dt end_dt releases).1 =
      specQuery baseQuery start_dt end_dt releases := by
  unfold build_query specQuery
  by_cases hb : baseQuery = ""
  · cases releases with
    | nil => simp [hb, joinSpace]
    | cons v vs =>
      cases vs with
      | nil => simp [hb, joinSpace, String.append_assoc]
      | cons w ws => simp [hb, joinSpace, String.append_assoc]
  · cases releases with
    | nil => simp [hb, joinSpace, String.append_assoc]
    | cons v vs =>
      cases vs with
      | nil => simp [hb, joinSpace, String.append_assoc]
      | cons w ws => simp [hb, joinSpace, String.append_assoc]

theorem mem_eligibleVersions {body : List RelJson} {end_dt : DT}
    {pf : String} {v : String} :
    v ∈ eligibleVersions body end_dt pf ↔ isEligible body end_dt pf v := by
  rw [eligibleVersions, mem_dedupFirst, List.mem_filterMap]
  rfl

/-- C6: with a successful catalog response, the selector returns at most
`limit` versions, without duplicates, all eligible (non-empty version,
parseable creation timestamp not after the window end, prefix filter
passed), in descending comparator order; no eligible version it omits
outranks any version it returns, and when the limit is not exhausted it
returns every eligible version. -/
theorem c6_release_selection (resp : RelResp) (limit : Nat) (end_dt : DT)
    (pf : String) (h : resp.status = 200) :
    (get_latest_releases resp limit end_dt pf).length ≤ limit
    ∧ (get_latest_releases resp limit end_dt pf).Nodup
    ∧ (∀ v ∈ get_latest_releases resp limit end_dt pf,
        isEligible resp.body end_dt pf v)
    ∧ (get_latest_releases resp limit end_dt pf).Pairwise
        (fun a b => tupLe (semver_key b) (semver_key a) = true)
    ∧ (∀ v, isEligible resp.body end_dt pf v →
        v ∉ get_latest_releases resp limit end_dt pf →
        ∀ u ∈ get_latest_releases resp limit end_dt pf,
          tupLe (semver_key v) (semver_key u) = true)
    ∧ ((get_latest_releases resp limit end_dt pf).length < limit →
        ∀ v, isEligible resp.body end_dt pf v →
          v ∈ get_latest_releases resp limit end_dt pf) := by
  have hout : get_latest_releases resp limit end_dt pf =
      (iSort relSortKeyGe (eligibleVersions resp.body end_dt pf)).take limit := by
    rw [get_latest_releases, if_neg (by simp [h])]
  have hnodupS : (iSort relSortKeyGe (eligibleVersions resp.body end_dt pf)).Nodup :=
    nodup_iSort (nodup_dedupFirst _)
  have hpairS : (iSort relSortKeyGe (eligibleVersions resp.body end_dt pf)).Pairwise
      (fun a b => relSortKeyGe a b = true) :=
    pairwise_iSort relSortKeyGe_total relSortKeyGe_trans _
  refine ⟨?_, ?_, ?_, ?_, ?_, ?_⟩
  · rw [hout, List.length_take]
    exact min_le_left _ _
  · rw [hout]
    exact hnodupS.sublist (List.take_sublist _ _)
  · intro v hv
    rw [hout] at hv
    exact mem_eligibleVersions.mp (mem_iSort.mp (List.take_subset _ _ hv))
  · rw [hout]
    exact (hpairS.sublist (List.take_sublist _ _)).imp fun h' => h'
  · intro v hv hnotin u hu
    rw [hout] at hnotin hu
    have hvS : v ∈ iSort relSortKeyGe (eligibleVersions resp.body end_dt pf) :=
      mem_iSort.mpr (mem_eligibleVersions.mpr hv)
    have hsplit := (List.take_append_drop limit
      (iSort relSortKeyGe (eligibleVersions resp.body end_dt pf))).symm
    have hvdrop : v ∈ (iSort relSortKeyGe
        (eligibleVersions resp.body end_dt pf)).drop limit := by
      rcases List.mem_append.mp (hsplit ▸ hvS) with h' | h'
      · exact absurd h' hnotin
      · exact h'
    have hpair2 := hsplit ▸ hpairS
    exact (List.pairwise_append.mp hpair2).2.2 u hu v hvdrop
  · intro hlen v hv
    rw [hout] at hlen ⊢
    rw [List.length_take] at hlen
    have hlt : (iSort relSortKeyGe (eligibleVersions resp.body end_dt pf)).length
        < limit := by omega
    rw [List.take_of_length_le (le_of_lt hlt)]
    exact mem_iSort.mpr (mem_eligibleVersions.mpr hv)

/-! ## Witnesses -/

/-- Concrete release catalog for the C6 witness: 3.1.3 is created after the
window end (excluded), 0.6.24 fails the prefix filter. -/
def c6Resp : RelResp :=
  ⟨200, [⟨some "3.1.2", some "2024-01-05T00:00:00Z"⟩,
    ⟨some "3.1.3", some "2024-01-09T00:00:00Z"⟩,
    ⟨some "3.1.1", some "2024-01-02T00:00:00Z"⟩,
    ⟨some "0.6.24", some "2024-01-02T00:00:00Z"⟩]⟩

/-- Window end for the C6 witness. -/
def c6End : DT := ⟨2024, 1, 8, 0, 0, 0, 0⟩

/-- C6 witness: on a concrete catalog the selection theorem applies and
the picked releases are the top two eligible versions by comparator. -/
theorem c6_release_selection_witness :
    (get_latest_releases c6Resp 2 c6End "3.").length ≤ 2
    ∧ get_latest_releases c6Resp 2 c6End "3." = ["3.1.2", "3.1.1"] :=
  ⟨(c6_release_selection c6Resp 2 c6End "3." rfl).1, by decide⟩

/-- First page of the C7 witness fixture. -/
def c7P1 : PageResp :=
  ⟨200, [⟨none, some "a", 1, []⟩], "<u?cursor=c1:0:0>; rel=\"next\""⟩

/-- Second page of the C7 witness fixture. -/
def c7P2 : PageResp :=
  ⟨200, [⟨none, some "b", 2, []⟩], "<u?cursor=c2:0:0>; rel=\"next\""⟩

/-- Third page of the C7 witness fixture: no next link. -/
def c7P3 : PageResp := ⟨200, [⟨none, some "c", 3, []⟩], ""⟩

/-- C7 witness: on a synthetic 3-page fixture, pagination returns the
union of all three pages' issues. -/
theorem c7_pagination_witness :
    fetchLoop [c7P1, c7P2, c7P3] = c7P1.issues ++ c7P2.issues ++ c7P3.issues :=
  (c7_pagination [c7P1, c7P2, c7P3] (by decide)).trans (by decide)

/-- Failed catalog response for the C8 witness. -/
def c8Resp : RelResp := ⟨500, [⟨some "3.1.2", some "2024-01-05T00:00:00Z"⟩]⟩

/-- Window end for the C8 witness. -/
def c8End : DT := ⟨2024, 1, 8, 0, 0, 0, 0⟩

/-- A successful first page for the C8 witness. -/
def c8Good : PageResp :=
  ⟨200, [⟨none, some "g", 1, []⟩], "<u?cursor=c9:0:0>; rel=\"next\""⟩

/-- A rate-limited second page for the C8 witness. -/
def c8Bad : PageResp := ⟨429, [⟨none, some "x", 9, []⟩], ""⟩

/-- C8 witness: the failed catalog yields no releases, and the failed
second page makes the fetcher return exactly the first page's issues. -/
theorem c8_failure_handling_witness :
    get_latest_releases c8Resp 2 c8End "3." = []
    ∧ fetchLoop [c8Good, c8Bad] = c8Good.issues := by
  have h := c8_failure_handling c8Resp 2 c8End "3." (by decide)
    [c8Good] c8Bad [] (by decide) (by decide)
  exact ⟨h.1, h.2.trans (by decide)⟩

end ShareACart
